import Mathlib

/-!
# WriteableFileChunk: the append-only segment writer of the document store

A shallow embedding of `searchlib/src/vespa/searchlib/docstore/writeablefilechunk.h`.

The header defines inline the nested class `Config`, the accessors
`getSerialNum`, `setSerialNum` and `frozen`, and the data members of the class.
Those are embedded directly from the header.  The remaining member functions are
only declared there; each of them that is needed below is modelled from the
written specification of the component, and says so in its doc comment.

Machine integers are natural numbers.  `uint64_t` values are natural numbers
below `2 ^ 64`; `setSerialNum` performs no arithmetic besides `std::max`, so no
reduction modulo `2 ^ 64` occurs in it.  Chunk ids are natural numbers: the spec
describes them as unique and increasing and does not describe a wrap-around of
the 32-bit counter.
-/

namespace search

/-- Bytes of a record or of a file, one natural number per byte. -/
abbrev Bytes := List Nat

/-- The number of values of a `uint64_t`. -/
def UINT64_RANGE : Nat := 2 ^ 64

/-- Modelled from the spec: the compression algorithms of `document::CompressionConfig::Type`,
which is declared outside this header; the header itself names only `LZ4`. -/
inductive CompressionType where
  | NONE
  | LZ4
  deriving DecidableEq, Repr

/-- Modelled from the spec: `document::CompressionConfig`, declared outside this header.
The spec lists the algorithm, the compression level and a threshold; the header
builds one from exactly these three arguments. -/
structure CompressionConfig where
  type : CompressionType
  compressionLevel : Nat
  threshold : Nat
  deriving DecidableEq, Repr

/-- The nested class `WriteableFileChunk::Config` with its two private members. -/
structure Config where
  _compression : CompressionConfig
  _maxChunkBytes : Nat
  deriving DecidableEq, Repr

namespace Config

/-- The default constructor `Config()`. -/
def default : Config :=
  { _compression := CompressionConfig.mk CompressionType.LZ4 9 60,
    _maxChunkBytes := 0x10000 }

/-- The constructor `Config(compression, maxChunkBytes)`. -/
def create (compression : CompressionConfig) (maxChunkBytes : Nat) : Config :=
  { _compression := compression,
    _maxChunkBytes := maxChunkBytes }

/-- The accessor `getCompression()`. -/
def getCompression (c : Config) : CompressionConfig := c._compression

/-- The accessor `getMaxChunkBytes()`. -/
def getMaxChunkBytes (c : Config) : Nat := c._maxChunkBytes

end Config

/-- Modelled from the spec: an entry, the triple of logical id, write-serial number
and payload bytes; the type is declared outside this header. -/
structure Entry where
  lid : Nat
  serialNum : Nat
  payload : Bytes
  deriving DecidableEq, Repr

/-- Modelled from the spec: a `Chunk`, the in-memory accumulation buffer with its
chunk id and its ordered sequence of entries; the class is declared outside this
header. -/
structure Chunk where
  id : Nat
  entries : List Entry
  deriving DecidableEq, Repr

/-- Modelled from the spec: a `ProcessedChunk`, the result of compressing a sealed
chunk: the inherited chunk id, the compressed payload, and the per-chunk figures
that the index record needs (last serial number covered and entry count); the
class is only forward-declared in this header. -/
structure ProcessedChunk where
  id : Nat
  payload : Bytes
  lastSerial : Nat
  numEntries : Nat
  deriving DecidableEq, Repr

/-- Modelled from the spec: a `ChunkMeta` index record
(chunk id, data-file byte offset, compressed length, last serial number covered,
entry count); the class is declared outside this header. -/
structure ChunkMeta where
  chunkId : Nat
  offset : Nat
  size : Nat
  lastSerial : Nat
  numEntries : Nat
  deriving DecidableEq, Repr

/-- Modelled from the spec: a `PendingChunk` durability record
(chunk id, idx-file extent, data-file extent, last serial number covered); the
class is only forward-declared in this header. -/
structure PendingChunk where
  chunkId : Nat
  idxExtent : Nat
  dataExtent : Nat
  lastSerial : Nat
  deriving DecidableEq, Repr

/-- The typedef `ProcessedChunkQ`, a vector of processed chunks. -/
abbrev ProcessedChunkQ := List ProcessedChunk

/-- The typedef `ProcessedChunkMap`, a `std::map` from chunk id to processed chunk,
kept as a list of key/value pairs that is read only through `mapFind`. -/
abbrev ProcessedChunkMap := List (Nat × ProcessedChunk)

/-- The data members of `WriteableFileChunk`.  The three locks, the write monitor
and the bucket map carry no data that the operations below read, and are left
out.  The two files are kept by their contents: the bytes of the data file and
the index records that follow the header of the index file.  The executor is
kept by the sealed chunks it currently holds for compression.  The chunk map,
the write queue, the pending queue with its two counters and the footprint
counter are carried as members; the spec does not say how the operations
modelled below use them, and these operations leave them as they are. -/
structure WriteableFileChunk where
  _config : Config
  _serialNum : Nat
  _frozen : Bool
  _dataFile : Bytes
  _idxFile : List ChunkMeta
  _chunkMap : List (Nat × Chunk)
  _pendingChunks : List PendingChunk
  _pendingIdx : Nat
  _pendingDat : Nat
  _currentDiskFootprint : Nat
  _nextChunkId : Nat
  _active : Chunk
  _alignment : Nat
  _granularity : Nat
  _maxChunkSize : Nat
  _firstChunkIdToBeWritten : Nat
  _writeTaskIsRunning : Bool
  _writeQ : ProcessedChunkQ
  _executor : List Chunk
  _orderedChunks : ProcessedChunkMap
  deriving DecidableEq, Repr

namespace WriteableFileChunk

/-- The accessor `getSerialNum()`: `return _serialNum;`. -/
def getSerialNum (s : WriteableFileChunk) : Nat := s._serialNum

/-- The mutator `setSerialNum(serialNum)`: `_serialNum = std::max(_serialNum, serialNum);`. -/
def setSerialNum (s : WriteableFileChunk) (serialNum : Nat) : WriteableFileChunk :=
  { s with _serialNum := max s._serialNum serialNum }

/-- The accessor `frozen()`: `return _frozen;`. -/
def frozen (s : WriteableFileChunk) : Bool := s._frozen

/-- A `const` accessor run as an operation on the object: it yields its value and
the object it was called on. -/
def getSerialNumOp (s : WriteableFileChunk) : Nat × WriteableFileChunk := (getSerialNum s, s)

/-- The `const` accessor `frozen()` run as an operation on the object. -/
def frozenOp (s : WriteableFileChunk) : Bool × WriteableFileChunk := (frozen s, s)

/-- A finite sequence of `setSerialNum` calls, oldest first. -/
def setSerialNums (s : WriteableFileChunk) (ns : List Nat) : WriteableFileChunk :=
  ns.foldl setSerialNum s

end WriteableFileChunk

/-! ## The reorder buffer -/

/-- The lookup `orderedChunks.find(k)` of the `std::map`: the chunk stored under key `k`. -/
def mapFind (k : Nat) : ProcessedChunkMap → Option ProcessedChunk
  | [] => none
  | (k1, v) :: m => if k1 = k then some v else mapFind k m

/-- The removal `orderedChunks.erase(k)` of the `std::map`. -/
def mapErase (k : Nat) (m : ProcessedChunkMap) : ProcessedChunkMap :=
  m.filter (fun p => decide (p.1 ≠ k))

/-- The assignment `orderedChunks[k] = v` of the `std::map`. -/
def mapInsert (k : Nat) (v : ProcessedChunk) (m : ProcessedChunkMap) : ProcessedChunkMap :=
  (k, v) :: mapErase k m

/-- Modelled from the spec: the loop of `fetchNextChain`, whose body is not in the header.
Starting at chunk id `id`, it removes and collects the consecutive ids present in
the reorder buffer until the first gap.  Every round removes one key, so the
number of keys bounds the number of rounds; `fuel` carries that bound. -/
def fetchNextChainLoop : Nat → ProcessedChunkMap → Nat → ProcessedChunkQ × ProcessedChunkMap
  | 0, m, _ => ([], m)
  | fuel + 1, m, id =>
    match mapFind id m with
    | none => ([], m)
    | some c =>
      let r := fetchNextChainLoop fuel (mapErase id m) (id + 1)
      (c :: r.1, r.2)

/-- Modelled from the spec: the static member `fetchNextChain(orderedChunks, firstChunkId)`,
declared in the header without a body.  It returns the collected run together
with the reorder buffer it leaves behind (the C++ function updates the buffer in
place through the reference). -/
def fetchNextChain (orderedChunks : ProcessedChunkMap) (firstChunkId : Nat) :
    ProcessedChunkQ × ProcessedChunkMap :=
  fetchNextChainLoop orderedChunks.length orderedChunks firstChunkId

/-! ## The writer -/

/-- Modelled from the spec: `computeChunkMeta(chunks, startPos, ...)`, declared in the header
without a body.  For each chunk of a drained run, in order, the data-file offset
is the current end-of-file cursor, and the cursor advances by the compressed
length. -/
def computeChunkMeta : ProcessedChunkQ → Nat → List ChunkMeta
  | [], _ => []
  | c :: cs, startPos =>
    { chunkId := c.id, offset := startPos, size := c.payload.length,
      lastSerial := c.lastSerial, numEntries := c.numEntries }
      :: computeChunkMeta cs (startPos + c.payload.length)

/-- Modelled from the spec: `writeData(chunks, sz)`, declared in the header without a body:
the compressed bytes of each chunk of the run are appended to the data file. -/
def writeData (dataFile : Bytes) (chunks : ProcessedChunkQ) : Bytes :=
  dataFile ++ (chunks.map ProcessedChunk.payload).flatten

namespace WriteableFileChunk

/-- Modelled from the spec: the constructor, declared in the header without a body.  The
writer starts with an empty active chunk carrying the first chunk id, empty files
behind the headers, an empty reorder buffer, and is not frozen.  The alignment,
granularity and maximal chunk size come from the tuning argument, which is
declared elsewhere, and are taken as arguments. -/
def create (initialSerialNum : Nat) (config : Config)
    (alignment granularity maxChunkSize : Nat) : WriteableFileChunk :=
  { _config := config,
    _serialNum := initialSerialNum,
    _frozen := false,
    _dataFile := [],
    _idxFile := [],
    _chunkMap := [],
    _pendingChunks := [],
    _pendingIdx := 0,
    _pendingDat := 0,
    _currentDiskFootprint := 0,
    _nextChunkId := 1,
    _active := { id := 0, entries := [] },
    _alignment := alignment,
    _granularity := granularity,
    _maxChunkSize := maxChunkSize,
    _firstChunkIdToBeWritten := 0,
    _writeTaskIsRunning := false,
    _writeQ := [],
    _executor := [],
    _orderedChunks := [] }

/-- Modelled from the spec: `enque(chunk)`, declared in the header without a body.  On
completion of a compression the processed chunk is inserted into the reorder
buffer keyed by its chunk id; waking the writer is the separate step
`fileWriter`. -/
def enque (s : WriteableFileChunk) (chunk : ProcessedChunk) : WriteableFileChunk :=
  { s with _orderedChunks := mapInsert chunk.id chunk s._orderedChunks }

/-- Modelled from the spec: one pass of `fileWriter`, declared in the header without a body.
The run starting at the expected next chunk id is taken out of the reorder
buffer; for each of its chunks the index record is built at the end-of-file
cursor, the compressed bytes go to the data file, the record goes to the index
file, and the expected-next-id counter advances.  The durability queue and the
footprint counters are not part of this model. -/
def fileWriter (s : WriteableFileChunk) : WriteableFileChunk :=
  let r := fetchNextChain s._orderedChunks s._firstChunkIdToBeWritten
  let cmetaV := computeChunkMeta r.1 s._dataFile.length
  { s with
    _orderedChunks := r.2,
    _dataFile := writeData s._dataFile r.1,
    _idxFile := s._idxFile ++ cmetaV,
    _firstChunkIdToBeWritten := s._firstChunkIdToBeWritten + r.1.length }

/-- The arrival of one compressed chunk at the writer: it is enqueued and the
signalled writer makes its pass. -/
def arrive (s : WriteableFileChunk) (chunk : ProcessedChunk) : WriteableFileChunk :=
  fileWriter (enque s chunk)

/-- The arrival of compressed chunks at the writer in the given order. -/
def arriveAll (s : WriteableFileChunk) (chunks : List ProcessedChunk) : WriteableFileChunk :=
  chunks.foldl arrive s

end WriteableFileChunk

/-! ## Assembly, compression and the read path -/

/-- Modelled from the spec: the compression collaborator, which is out of the scope of this
component: it turns the entries of a sealed chunk into the compressed payload
and back. -/
structure Codec where
  compress : List Entry → Bytes
  decompress : Bytes → List Entry

/-- The errors reported synchronously to the caller. -/
inductive Error where
  | invalidState
  deriving DecidableEq, Repr

/-- Modelled from the spec: the handle `LidInfo` returned by `append`: the chunk id and the
position of the entry inside the chunk; the class is declared outside this
header. -/
structure LidInfo where
  chunkId : Nat
  offset : Nat
  deriving DecidableEq, Repr

/-- Modelled from the spec: the cumulative byte size of a chunk. -/
def Chunk.size (c : Chunk) : Nat := (c.entries.map (fun e => e.payload.length)).sum

/-- Modelled from the spec: the lookup of a logical id inside a chunk.  The spec leaves open
which entry answers when the id was appended more than once to the chunk; the
most recent one is taken here. -/
def findLid (lid : Nat) : List Entry → Option Bytes
  | [] => none
  | e :: es =>
    match findLid lid es with
    | some b => some b
    | none => if e.lid = lid then some e.payload else none

/-- Modelled from the spec: the result of one compression task: the chunk id is inherited,
the payload is the compressed entries, and the record carries the serial number
of the last entry and the entry count. -/
def processChunk (cd : Codec) (c : Chunk) : ProcessedChunk :=
  { id := c.id,
    payload := cd.compress c.entries,
    lastSerial := (c.entries.getLast?.map Entry.serialNum).getD 0,
    numEntries := c.entries.length }

namespace WriteableFileChunk

/-- Modelled from the spec: sealing the active chunk.  It keeps its chunk id, a fresh empty
chunk with the next id becomes the active one, and the sealed chunk is handed to
the compression pool. -/
def sealActive (s : WriteableFileChunk) : WriteableFileChunk :=
  { s with
    _executor := s._executor ++ [s._active],
    _active := { id := s._nextChunkId, entries := [] },
    _nextChunkId := s._nextChunkId + 1 }

/-- Modelled from the spec: the copy of one payload into the active chunk, as its newest
entry. -/
def addEntry (s : WriteableFileChunk) (serialNum lid : Nat) (buffer : Bytes) :
    WriteableFileChunk :=
  { s with _active := { s._active with
      entries := s._active.entries
        ++ [{ lid := lid, serialNum := serialNum, payload := buffer }] } }

/-- Modelled from the spec: `append(serialNum, lid, buffer, len)`, declared in the header
without a body.  On a frozen writer it fails with an invalid-state error.
Otherwise the payload is copied into the active chunk, the handle names that
chunk, and the chunk is sealed when its size exceeds the configured maximum
after this append. -/
def append (s : WriteableFileChunk) (serialNum lid : Nat) (buffer : Bytes) :
    Except Error (LidInfo × WriteableFileChunk) :=
  if s._frozen then Except.error Error.invalidState
  else
    let info : LidInfo := { chunkId := s._active.id, offset := s._active.size }
    let s1 := addEntry s serialNum lid buffer
    let s2 := if s1._active.size > s1._config.getMaxChunkBytes then sealActive s1 else s1
    Except.ok (info, s2)

/-- Modelled from the spec: `freeze()`, declared in the header without a body: it forces a
seal of a non-empty active chunk and sets the frozen flag. -/
def freeze (s : WriteableFileChunk) : WriteableFileChunk :=
  let s1 := if s._active.entries.isEmpty then s else sealActive s
  { s1 with _frozen := true }

/-- Modelled from the spec: the completion of the compression task that holds the `i`-th
sealed chunk of the pool: the processed chunk goes to the reorder buffer.  Tasks
may complete in any order. -/
def compressed (cd : Codec) (s : WriteableFileChunk) (i : Nat) : WriteableFileChunk :=
  match s._executor.get? i with
  | none => s
  | some c => enque { s with _executor := s._executor.eraseIdx i } (processChunk cd c)

end WriteableFileChunk

/-- The steps of the writer: the calls of its interface and the completions of
its background work, in the order in which they take effect. -/
inductive Event where
  | append (serialNum lid : Nat) (buffer : Bytes)
  | compressed (i : Nat)
  | fileWriter
  | freeze
  | setSerialNum (serialNum : Nat)
  deriving DecidableEq, Repr

/-- What one successful `append` did: the logical id, the chunk id of the handle
it returned, and the bytes appended. -/
structure Appended where
  serialNum : Nat
  lid : Nat
  chunkId : Nat
  buffer : Bytes
  deriving DecidableEq, Repr

/-- The entry that a successful `append` put into its chunk. -/
def Appended.entry (a : Appended) : Entry :=
  { lid := a.lid, serialNum := a.serialNum, payload := a.buffer }

/-- The entries that the successful appends of `log` put into the chunk `chunk`,
oldest first. -/
def entriesOf (log : List Appended) (chunk : Nat) : List Entry :=
  (log.filter (fun a => decide (a.chunkId = chunk))).map Appended.entry

namespace WriteableFileChunk

/-- One step of the writer.  A failing `append` leaves the writer as it was. -/
def step (cd : Codec) (s : WriteableFileChunk) : Event → WriteableFileChunk
  | Event.append serialNum lid buffer =>
    match append s serialNum lid buffer with
    | Except.ok r => r.2
    | Except.error _ => s
  | Event.compressed i => compressed cd s i
  | Event.fileWriter => fileWriter s
  | Event.freeze => freeze s
  | Event.setSerialNum n => setSerialNum s n

/-- The writer after a sequence of steps. -/
def run (cd : Codec) : WriteableFileChunk → List Event → WriteableFileChunk
  | s, [] => s
  | s, e :: es => run cd (step cd s e) es

end WriteableFileChunk

/-- The offsets of consecutive index records are contiguous:
the next offset is the previous offset plus the previous length. -/
def Contiguous (a b : ChunkMeta) : Prop := b.offset = a.offset + a.size

/-- The index records tile the bytes from position `a` to position `b`: the first
record starts at `a`, each next one where the previous one ends, and the last one
ends at `b`. -/
def MetaChain : Nat → List ChunkMeta → Nat → Prop
  | a, [], b => a = b
  | a, m :: ms, b => m.offset = a ∧ MetaChain (a + m.size) ms b

/-- The bytes of the data file at the extent that an index record names. -/
def extent (dataFile : Bytes) (m : ChunkMeta) : Bytes :=
  (dataFile.drop m.offset).take m.size

/-- What holds of the writer once the chunks `ps` have arrived: the index file
lists the chunk ids below the expected next id in ascending order, its records
tile the data file, every record describes an arrived chunk whose bytes the data
file holds at the recorded extent, and the reorder buffer holds the arrived
chunks that are not yet written, the expected next id not being among them. -/
structure WriterInv (s : WriteableFileChunk) (ps : List ProcessedChunk) : Prop where
  ids : s._idxFile.map ChunkMeta.chunkId = List.range s._firstChunkIdToBeWritten
  chain : MetaChain 0 s._idxFile s._dataFile.length
  buffered : ∀ p ∈ s._orderedChunks, p.2 ∈ ps ∧ p.2.id = p.1
  present : ∀ c ∈ ps, s._firstChunkIdToBeWritten ≤ c.id →
    (mapFind c.id s._orderedChunks).isSome = true
  written : ∀ k, k < s._firstChunkIdToBeWritten → k ∈ ps.map ProcessedChunk.id
  gap : mapFind s._firstChunkIdToBeWritten s._orderedChunks = none
  stored : ∀ m ∈ s._idxFile, ∃ c ∈ ps, m.chunkId = c.id ∧ m.size = c.payload.length
    ∧ extent s._dataFile m = c.payload

end search

namespace search

open WriteableFileChunk

/-! ## Configuration and serial number -/

/-- C10: a default-constructed `Config` reports 65536 (0x10000) as maximal chunk
size and LZ4 with level 9 and threshold 60 as compression, and a `Config` built
from a compression config and a size reports exactly these two. -/
theorem Config_getters_agree :
    Config.getMaxChunkBytes Config.default = 65536
    ∧ Config.getMaxChunkBytes Config.default = 0x10000
    ∧ Config.getCompression Config.default = CompressionConfig.mk CompressionType.LZ4 9 60
    ∧ (∀ (c : CompressionConfig) (m : Nat),
        Config.getCompression (Config.create c m) = c
        ∧ Config.getMaxChunkBytes (Config.create c m) = m) :=
  ⟨rfl, rfl, rfl, fun _ _ => ⟨rfl, rfl⟩⟩

/-- C5: calling `setSerialNum` with a value below the current serial number
leaves `getSerialNum()` as it was. -/
theorem setSerialNum_regression (s : WriteableFileChunk) (n : Nat)
    (h : n < getSerialNum s) :
    getSerialNum (setSerialNum s n) = getSerialNum s := by
  have e : getSerialNum (setSerialNum s n) = max (getSerialNum s) n := rfl
  rw [e]
  exact Nat.max_eq_left (Nat.le_of_lt h)

/-- An instance of C5: a writer at serial number 5 is asked for 3. -/
theorem setSerialNum_regression_witness :
    3 < getSerialNum (create 5 Config.default 1 1 1)
    ∧ getSerialNum (setSerialNum (create 5 Config.default 1 1 1) 3)
        = getSerialNum (create 5 Config.default 1 1 1) :=
  ⟨by decide, setSerialNum_regression (create 5 Config.default 1 1 1) 3 (by decide)⟩

/-- C6: for serial numbers in the `uint64_t` range, `getSerialNum()` after
`setSerialNum(n)` is the maximum of the old serial number and `n`: it is `n`
when `n` is not below the old one and the old one otherwise, and it stays in the
`uint64_t` range. -/
theorem setSerialNum_max (s : WriteableFileChunk) (n : Nat)
    (hs : getSerialNum s < UINT64_RANGE) (hn : n < UINT64_RANGE) :
    getSerialNum (setSerialNum s n) = max (getSerialNum s) n
    ∧ (getSerialNum s ≤ n → getSerialNum (setSerialNum s n) = n)
    ∧ (n < getSerialNum s → getSerialNum (setSerialNum s n) = getSerialNum s)
    ∧ getSerialNum (setSerialNum s n) < UINT64_RANGE := by
  have e : getSerialNum (setSerialNum s n) = max (getSerialNum s) n := rfl
  rw [e]
  exact ⟨rfl, fun h => Nat.max_eq_right h, fun h => Nat.max_eq_left (Nat.le_of_lt h),
    max_lt hs hn⟩

/-- An instance of C6: a writer at serial number 5 is asked for the largest
`uint64_t` value. -/
theorem setSerialNum_max_witness :
    getSerialNum (setSerialNum (create 5 Config.default 1 1 1) (2 ^ 64 - 1))
        = max (getSerialNum (create 5 Config.default 1 1 1)) (2 ^ 64 - 1)
    ∧ getSerialNum (setSerialNum (create 5 Config.default 1 1 1) (2 ^ 64 - 1)) < UINT64_RANGE :=
  have h := setSerialNum_max (create 5 Config.default 1 1 1) (2 ^ 64 - 1)
    (by decide) (by decide)
  ⟨h.1, h.2.2.2⟩

theorem getSerialNum_setSerialNums_snoc (s : WriteableFileChunk) (pre : List Nat) (n : Nat) :
    getSerialNum (setSerialNums s (pre ++ [n])) = max (getSerialNum (setSerialNums s pre)) n := by
  simp [setSerialNums, List.foldl_append, setSerialNum, getSerialNum]

theorem le_getSerialNum_setSerialNums (ns : List Nat) :
    ∀ s : WriteableFileChunk, getSerialNum s ≤ getSerialNum (setSerialNums s ns)
      ∧ ∀ a ∈ ns, a ≤ getSerialNum (setSerialNums s ns) := by
  induction ns with
  | nil => intro s; simp [setSerialNums]
  | cons n ns ih =>
    intro s
    have h := ih (setSerialNum s n)
    have h0 : getSerialNum (setSerialNum s n) = max (getSerialNum s) n := rfl
    have e : setSerialNums s (n :: ns) = setSerialNums (setSerialNum s n) ns := rfl
    rw [e]
    refine ⟨le_trans (le_max_left _ _) (h0 ▸ h.1), ?_⟩
    intro a ha
    rcases List.mem_cons.mp ha with rfl | ha
    · exact le_trans (le_max_right _ _) (h0 ▸ h.1)
    · exact h.2 a ha

theorem getSerialNum_setSerialNums_mem (ns : List Nat) :
    ∀ s : WriteableFileChunk, getSerialNum (setSerialNums s ns) ∈ getSerialNum s :: ns := by
  induction ns with
  | nil => intro s; simp [setSerialNums]
  | cons n ns ih =>
    intro s
    have h := ih (setSerialNum s n)
    have h0 : getSerialNum (setSerialNum s n) = max (getSerialNum s) n := rfl
    have e : setSerialNums s (n :: ns) = setSerialNums (setSerialNum s n) ns := rfl
    rw [e]
    rcases List.mem_cons.mp h with h | h
    · rw [h, h0]
      rcases max_choice (getSerialNum s) n with hm | hm <;> rw [hm] <;> simp
    · exact List.mem_cons_of_mem _ (List.mem_cons_of_mem _ h)

/-- C7: along every finite sequence of `setSerialNum` calls the value of
`getSerialNum()` after a call is at least the value before it and at least every
argument supplied so far; the final value is the maximum of the initial serial
number and all the arguments, and does not depend on the order of the calls. -/
theorem serialNum_never_regresses (s : WriteableFileChunk) (ns : List Nat) :
    (∀ (pre : List Nat) (n : Nat),
        getSerialNum (setSerialNums s pre) ≤ getSerialNum (setSerialNums s (pre ++ [n]))
        ∧ ∀ a ∈ pre ++ [n], a ≤ getSerialNum (setSerialNums s (pre ++ [n])))
    ∧ (∀ a ∈ getSerialNum s :: ns, a ≤ getSerialNum (setSerialNums s ns))
    ∧ getSerialNum (setSerialNums s ns) ∈ getSerialNum s :: ns
    ∧ getSerialNum (setSerialNums s ns) = ns.foldl max (getSerialNum s)
    ∧ (∀ ms : List Nat, ms.Perm ns →
        getSerialNum (setSerialNums s ms) = getSerialNum (setSerialNums s ns)) := by
  have hmaxi : ∀ (l : List Nat) (t : WriteableFileChunk),
      (∀ a ∈ getSerialNum t :: l, a ≤ getSerialNum (setSerialNums t l)) := by
    intro l t a ha
    rcases List.mem_cons.mp ha with rfl | ha
    · exact (le_getSerialNum_setSerialNums l t).1
    · exact (le_getSerialNum_setSerialNums l t).2 a ha
  refine ⟨?_, hmaxi ns s, getSerialNum_setSerialNums_mem ns s, ?_, ?_⟩
  · intro pre n
    refine ⟨?_, (le_getSerialNum_setSerialNums (pre ++ [n]) s).2⟩
    rw [getSerialNum_setSerialNums_snoc]
    exact le_max_left _ _
  · have : ∀ (l : List Nat) (t : WriteableFileChunk),
        getSerialNum (setSerialNums t l) = l.foldl max (getSerialNum t) := by
      intro l
      induction l with
      | nil => intro t; rfl
      | cons n l ih => intro t; exact ih (setSerialNum t n)
    exact this ns s
  · intro ms hp
    apply le_antisymm
    · have hm := getSerialNum_setSerialNums_mem ms s
      rcases List.mem_cons.mp hm with h | h
      · rw [h]; exact (le_getSerialNum_setSerialNums ns s).1
      · exact (le_getSerialNum_setSerialNums ns s).2 _ (hp.subset h)
    · have hm := getSerialNum_setSerialNums_mem ns s
      rcases List.mem_cons.mp hm with h | h
      · rw [h]; exact (le_getSerialNum_setSerialNums ms s).1
      · exact (le_getSerialNum_setSerialNums ms s).2 _ (hp.symm.subset h)

/-- C9: `setSerialNum` changes nothing but the serial number: the frozen flag, the
configuration, the next chunk id, the first chunk id to be written, the pending
idx and dat counters, the current disk footprint and every other member keep
their values; `getSerialNum()` and `frozen()` leave the whole state unchanged. -/
theorem setSerialNum_frame (s : WriteableFileChunk) (n : Nat) :
    frozen (setSerialNum s n) = frozen s
    ∧ (setSerialNum s n)._config = s._config
    ∧ (setSerialNum s n)._nextChunkId = s._nextChunkId
    ∧ (setSerialNum s n)._firstChunkIdToBeWritten = s._firstChunkIdToBeWritten
    ∧ (setSerialNum s n)._pendingIdx = s._pendingIdx
    ∧ (setSerialNum s n)._pendingDat = s._pendingDat
    ∧ (setSerialNum s n)._currentDiskFootprint = s._currentDiskFootprint
    ∧ setSerialNum s n = { s with _serialNum := getSerialNum (setSerialNum s n) }
    ∧ (getSerialNumOp s).2 = s
    ∧ (frozenOp s).2 = s := by
  refine ⟨rfl, rfl, rfl, rfl, rfl, rfl, rfl, rfl, rfl, rfl⟩

end search

namespace search

open WriteableFileChunk

/-! ## The reorder buffer and the extraction of a writable run -/

theorem mapFind_filter (q : Nat → Bool) (k : Nat) (m : ProcessedChunkMap) :
    mapFind k (m.filter (fun p => q p.1)) = if q k = true then mapFind k m else none := by
  induction m with
  | nil => simp [mapFind]
  | cons p m ih =>
    obtain ⟨k1, v⟩ := p
    by_cases hq : q k1 = true
    · rw [List.filter_cons_of_pos (by simpa using hq)]
      by_cases hk : k1 = k
      · subst hk; simp [mapFind, hq]
      · simp [mapFind, hk, ih]
    · rw [List.filter_cons_of_neg (by simpa using hq)]
      by_cases hk : k1 = k
      · subst hk; simp [mapFind, hq, ih]
      · simp [mapFind, hk, ih]

theorem mapFind_mapErase (k j : Nat) (m : ProcessedChunkMap) :
    mapFind k (mapErase j m) = if k = j then none else mapFind k m := by
  have h := mapFind_filter (fun x => decide (x ≠ j)) k m
  unfold mapErase
  rw [h]
  by_cases hk : k = j <;> simp [hk]

theorem mapFind_mapInsert (k j : Nat) (v : ProcessedChunk) (m : ProcessedChunkMap) :
    mapFind k (mapInsert j v m) = if k = j then some v else mapFind k m := by
  unfold mapInsert
  by_cases hk : k = j
  · subst hk; simp [mapFind]
  · have hj : ¬ j = k := fun h => hk h.symm
    simp [mapFind, hj, hk, mapFind_mapErase]

theorem mapFind_mem (k : Nat) (c : ProcessedChunk) (m : ProcessedChunkMap)
    (h : mapFind k m = some c) : (k, c) ∈ m := by
  induction m with
  | nil => simp [mapFind] at h
  | cons p m ih =>
    obtain ⟨k1, v⟩ := p
    by_cases hk : k1 = k
    · subst hk
      simp [mapFind] at h
      subst h
      exact List.mem_cons_self _ _
    · simp [mapFind, hk] at h
      exact List.mem_cons_of_mem _ (ih h)

theorem length_mapErase_lt (k : Nat) (c : ProcessedChunk) (m : ProcessedChunkMap)
    (h : mapFind k m = some c) : (mapErase k m).length < m.length := by
  unfold mapErase
  apply List.length_filter_lt_length_iff_exists.mpr
  exact ⟨(k, c), mapFind_mem k c m h, by simp⟩

/-- The loop of `fetchNextChain` with enough fuel: the collected chunks are those
stored under the consecutive keys from `id` on, the loop stops at an absent key,
and the buffer left behind is the old one without the collected keys. -/
theorem fetchNextChainLoop_spec (fuel : Nat) :
    ∀ (m : ProcessedChunkMap) (id : Nat), m.length ≤ fuel →
      (∀ i, i < (fetchNextChainLoop fuel m id).1.length →
        (fetchNextChainLoop fuel m id).1.get? i = mapFind (id + i) m)
      ∧ mapFind (id + (fetchNextChainLoop fuel m id).1.length) m = none
      ∧ (fetchNextChainLoop fuel m id).2
          = m.filter (fun p => decide (¬ (id ≤ p.1
              ∧ p.1 < id + (fetchNextChainLoop fuel m id).1.length))) := by
  induction fuel with
  | zero =>
    intro m id hm
    have : m = [] := List.length_eq_zero.mp (Nat.le_zero.mp hm)
    subst this
    simp [fetchNextChainLoop, mapFind]
  | succ fuel ih =>
    intro m id hm
    cases hf : mapFind id m with
    | none =>
      have e : fetchNextChainLoop (fuel + 1) m id = ([], m) := by
        simp [fetchNextChainLoop, hf]
      rw [e]
      refine ⟨by simp, by simpa using hf, ?_⟩
      simp
    | some c =>
      have e : fetchNextChainLoop (fuel + 1) m id
          = (c :: (fetchNextChainLoop fuel (mapErase id m) (id + 1)).1,
             (fetchNextChainLoop fuel (mapErase id m) (id + 1)).2) := by
        simp [fetchNextChainLoop, hf]
      have hlen : (mapErase id m).length ≤ fuel := by
        have := length_mapErase_lt id c m hf
        omega
      obtain ⟨h1, h2, h3⟩ := ih (mapErase id m) (id + 1) hlen
      rw [e]
      refine ⟨?_, ?_, ?_⟩
      · intro i hi
        cases i with
        | zero => simp [hf]
        | succ i =>
          have hi1 : i < (fetchNextChainLoop fuel (mapErase id m) (id + 1)).1.length := by
            simpa using hi
          have := h1 i hi1
          rw [mapFind_mapErase] at this
          have hne : ¬ (id + 1 + i = id) := by omega
          simp only [hne, if_false] at this
          simp only [List.get?_cons_succ]
          rw [this]
          congr 1
          omega
      · rw [mapFind_mapErase] at h2
        have hne : ¬ (id + 1 + (fetchNextChainLoop fuel (mapErase id m) (id + 1)).1.length = id) := by
          omega
        simp only [hne, if_false] at h2
        simp only [List.length_cons]
        rw [← h2]
        congr 1
        omega
      · show (fetchNextChainLoop fuel (mapErase id m) (id + 1)).2 = _
        rw [h3]
        unfold mapErase
        rw [List.filter_filter]
        apply List.filter_congr
        intro p _
        simp only [List.length_cons]
        rw [Bool.eq_iff_iff]
        simp only [Bool.and_eq_true, decide_eq_true_eq]
        omega

theorem fetchNextChain_keys (m : ProcessedChunkMap) (first : Nat) :
    (∀ i, i < (fetchNextChain m first).1.length →
        (fetchNextChain m first).1.get? i = mapFind (first + i) m)
    ∧ mapFind (first + (fetchNextChain m first).1.length) m = none
    ∧ (fetchNextChain m first).2
        = m.filter (fun p => decide (¬ (first ≤ p.1
            ∧ p.1 < first + (fetchNextChain m first).1.length))) :=
  fetchNextChainLoop_spec m.length m first (Nat.le_refl _)

end search

namespace search

open WriteableFileChunk

theorem fetchNextChain_ids (m : ProcessedChunkMap) (first : Nat)
    (hid : ∀ p ∈ m, p.2.id = p.1) :
    (fetchNextChain m first).1.map ProcessedChunk.id
      = List.range' first (fetchNextChain m first).1.length := by
  obtain ⟨h1, _, _⟩ := fetchNextChain_keys m first
  apply List.ext_get?
  intro i
  by_cases hi : i < (fetchNextChain m first).1.length
  · have h := h1 i hi
    have hsome : (fetchNextChain m first).1.get? i
        = some ((fetchNextChain m first).1.get ⟨i, hi⟩) := List.get?_eq_get hi
    rw [hsome] at h
    have hmem := mapFind_mem _ _ _ h.symm
    have hc := hid _ hmem
    simp only [List.get?_eq_getElem?, List.getElem?_map, List.getElem?_range' _ _ hi]
    simp only [List.get?_eq_getElem?] at hsome
    rw [hsome]
    simpa using hc
  · have hi1 : (fetchNextChain m first).1.length ≤ i := Nat.le_of_not_lt hi
    simp only [List.get?_eq_getElem?]
    rw [List.getElem?_eq_none (by simpa using hi1), List.getElem?_eq_none (by simpa using hi1)]

theorem mapFind_fetchNextChain (m : ProcessedChunkMap) (first : Nat) (key : Nat) :
    mapFind key (fetchNextChain m first).2
      = if first ≤ key ∧ key < first + (fetchNextChain m first).1.length
        then none else mapFind key m := by
  obtain ⟨_, _, h3⟩ := fetchNextChain_keys m first
  have h := mapFind_filter (fun x => decide (¬ (first ≤ x
    ∧ x < first + (fetchNextChain m first).1.length))) key m
  rw [← h3] at h
  rw [h]
  by_cases hk : first ≤ key ∧ key < first + (fetchNextChain m first).1.length
  · simp [hk]
  · simp [hk]

/-- C1: `fetchNextChain(orderedChunks, firstChunkId)` extracts exactly the maximal
contiguous run.  With `k` the length of the returned queue, the queue holds, in
this order, the chunks stored under `firstChunkId`, `firstChunkId + 1`, ...,
`firstChunkId + k - 1`; `k` is the largest number such that all these ids are
present; exactly these keys are removed from the map and every other entry stays
in place; and when `firstChunkId` is absent the queue is empty and the map is
unchanged.  When every chunk is stored under its own id, the ids of the queue are
`firstChunkId, ..., firstChunkId + k - 1` in ascending order. -/
theorem fetchNextChain_maximal_run (orderedChunks : ProcessedChunkMap) (firstChunkId : Nat) :
    (∀ i, i < (fetchNextChain orderedChunks firstChunkId).1.length →
        (fetchNextChain orderedChunks firstChunkId).1.get? i
          = mapFind (firstChunkId + i) orderedChunks
        ∧ (mapFind (firstChunkId + i) orderedChunks).isSome = true)
    ∧ (∀ j, (∀ i, i < j → (mapFind (firstChunkId + i) orderedChunks).isSome = true)
        ↔ j ≤ (fetchNextChain orderedChunks firstChunkId).1.length)
    ∧ (∀ key, mapFind key (fetchNextChain orderedChunks firstChunkId).2
        = if firstChunkId ≤ key
            ∧ key < firstChunkId + (fetchNextChain orderedChunks firstChunkId).1.length
          then none else mapFind key orderedChunks)
    ∧ (fetchNextChain orderedChunks firstChunkId).2
        = orderedChunks.filter (fun p => decide (¬ (firstChunkId ≤ p.1
            ∧ p.1 < firstChunkId + (fetchNextChain orderedChunks firstChunkId).1.length)))
    ∧ (mapFind firstChunkId orderedChunks = none →
        fetchNextChain orderedChunks firstChunkId = ([], orderedChunks))
    ∧ ((∀ p ∈ orderedChunks, p.2.id = p.1) →
        (fetchNextChain orderedChunks firstChunkId).1.map ProcessedChunk.id
          = List.range' firstChunkId (fetchNextChain orderedChunks firstChunkId).1.length) := by
  obtain ⟨h1, h2, h3⟩ := fetchNextChain_keys orderedChunks firstChunkId
  have hpres : ∀ i, i < (fetchNextChain orderedChunks firstChunkId).1.length →
      (mapFind (firstChunkId + i) orderedChunks).isSome = true := by
    intro i hi
    rw [← h1 i hi, List.get?_eq_get hi]
    rfl
  refine ⟨fun i hi => ⟨h1 i hi, hpres i hi⟩, ?_, ?_, h3, ?_,
    fetchNextChain_ids orderedChunks firstChunkId⟩
  · intro j
    constructor
    · intro hj
      by_contra hlt
      have := hj _ (Nat.lt_of_not_le hlt)
      rw [h2] at this
      simp at this
    · intro hj i hi
      exact hpres i (Nat.lt_of_lt_of_le hi hj)
  · exact mapFind_fetchNextChain orderedChunks firstChunkId
  · intro habs
    cases hm : orderedChunks with
    | nil => rfl
    | cons p m =>
      have : fetchNextChain orderedChunks firstChunkId = ([], orderedChunks) := by
        unfold fetchNextChain
        rw [hm]
        simp only [List.length_cons, fetchNextChainLoop]
        rw [← hm, habs]
      rw [← hm]
      exact this

end search

namespace search

open WriteableFileChunk

/-! ## The writer: order and contiguity of what is written -/

theorem extent_append_here (pre x post : Bytes) (m : ChunkMeta)
    (ho : m.offset = pre.length) (hs : m.size = x.length) :
    extent (pre ++ (x ++ post)) m = x := by
  unfold extent
  rw [ho, hs, List.drop_left, List.take_left]

theorem extent_append_stable (file more : Bytes) (m : ChunkMeta)
    (h : m.offset + m.size ≤ file.length) :
    extent (file ++ more) m = extent file m := by
  unfold extent
  rw [List.drop_append_of_le_length (by omega)]
  rw [List.take_append_of_le_length (by rw [List.length_drop]; omega)]

theorem computeChunkMeta_ids (cs : ProcessedChunkQ) :
    ∀ p, (computeChunkMeta cs p).map ChunkMeta.chunkId = cs.map ProcessedChunk.id := by
  induction cs with
  | nil => intro p; rfl
  | cons c cs ih => intro p; simp [computeChunkMeta, ih]

theorem computeChunkMeta_chain (cs : ProcessedChunkQ) :
    ∀ p, MetaChain p (computeChunkMeta cs p)
      (p + (cs.map ProcessedChunk.payload).flatten.length) := by
  induction cs with
  | nil => intro p; simp [computeChunkMeta, MetaChain]
  | cons c cs ih =>
    intro p
    simp only [computeChunkMeta, MetaChain, List.map_cons, List.flatten_cons, List.length_append]
    refine ⟨trivial, ?_⟩
    have := ih (p + c.payload.length)
    rw [Nat.add_assoc] at this
    exact this

theorem computeChunkMeta_mem (cs : ProcessedChunkQ) :
    ∀ (pre : Bytes) (m : ChunkMeta), m ∈ computeChunkMeta cs pre.length →
      ∃ c ∈ cs, m.chunkId = c.id ∧ m.size = c.payload.length
        ∧ m.lastSerial = c.lastSerial ∧ m.numEntries = c.numEntries
        ∧ extent (pre ++ (cs.map ProcessedChunk.payload).flatten) m = c.payload
        ∧ m.offset + m.size ≤ (pre ++ (cs.map ProcessedChunk.payload).flatten).length := by
  induction cs with
  | nil => intro pre m hm; simp [computeChunkMeta] at hm
  | cons c cs ih =>
    intro pre m hm
    simp only [computeChunkMeta, List.mem_cons] at hm
    rcases hm with rfl | hm
    · refine ⟨c, List.mem_cons_self _ _, rfl, rfl, rfl, rfl, ?_, ?_⟩
      · simp only [List.map_cons, List.flatten_cons]
        exact extent_append_here _ _ _ _ rfl rfl
      · simp only [List.map_cons, List.flatten_cons, List.length_append]
        omega
    · have hlen : pre.length + c.payload.length = (pre ++ c.payload).length := by
        simp
      rw [hlen] at hm
      obtain ⟨c1, hc1, h1, h2, h3, h4, h5, h6⟩ := ih (pre ++ c.payload) m hm
      refine ⟨c1, List.mem_cons_of_mem _ hc1, h1, h2, h3, h4, ?_, ?_⟩
      · simp only [List.map_cons, List.flatten_cons]
        rw [← List.append_assoc]
        exact h5
      · simp only [List.map_cons, List.flatten_cons]
        rw [← List.append_assoc]
        exact h6

theorem MetaChain_append (ms : List ChunkMeta) :
    ∀ (a b c : Nat) (ns : List ChunkMeta), MetaChain a ms b → MetaChain b ns c →
      MetaChain a (ms ++ ns) c := by
  induction ms with
  | nil => intro a b c ns h1 h2; simp only [MetaChain] at h1; subst h1; simpa using h2
  | cons m ms ih =>
    intro a b c ns h1 h2
    simp only [MetaChain, List.cons_append] at h1 ⊢
    exact ⟨h1.1, ih _ _ _ _ h1.2 h2⟩

theorem MetaChain_bounds (ms : List ChunkMeta) :
    ∀ (a b : Nat), MetaChain a ms b →
      a ≤ b ∧ ∀ m ∈ ms, a ≤ m.offset ∧ m.offset + m.size ≤ b := by
  induction ms with
  | nil => intro a b h; simp only [MetaChain] at h; subst h; simp
  | cons m ms ih =>
    intro a b h
    simp only [MetaChain] at h
    obtain ⟨h1, h2⟩ := ih _ _ h.2
    refine ⟨by omega, ?_⟩
    intro x hx
    rcases List.mem_cons.mp hx with rfl | hx
    · omega
    · have := h2 x hx
      omega

theorem MetaChain_contiguous (ms : List ChunkMeta) :
    ∀ (a b : Nat), MetaChain a ms b → List.Chain' Contiguous ms := by
  induction ms with
  | nil => intro a b _; exact List.chain'_nil
  | cons m ms ih =>
    intro a b h
    simp only [MetaChain] at h
    cases ms with
    | nil => exact List.chain'_singleton _
    | cons m1 ms =>
      refine List.chain'_cons.mpr ⟨?_, ih _ _ h.2⟩
      have h2 := h.2
      simp only [MetaChain] at h2
      unfold Contiguous
      omega

theorem fetchNextChain_mem (m : ProcessedChunkMap) (first : Nat) (c : ProcessedChunk)
    (hc : c ∈ (fetchNextChain m first).1) :
    ∃ i, i < (fetchNextChain m first).1.length ∧ mapFind (first + i) m = some c := by
  obtain ⟨h1, _, _⟩ := fetchNextChain_keys m first
  obtain ⟨⟨i, hi⟩, hget⟩ := List.mem_iff_get.mp hc
  refine ⟨i, hi, ?_⟩
  rw [← h1 i hi, List.get?_eq_get hi, hget]

end search

namespace search

open WriteableFileChunk

theorem mem_mapInsert (k : Nat) (v : ProcessedChunk) (m : ProcessedChunkMap)
    (p : Nat × ProcessedChunk) (hp : p ∈ mapInsert k v m) : p = (k, v) ∨ p ∈ m := by
  unfold mapInsert mapErase at hp
  rcases List.mem_cons.mp hp with h | h
  · exact Or.inl h
  · exact Or.inr (List.mem_filter.mp h).1

theorem WriterInv_create (initialSerialNum : Nat) (config : Config)
    (alignment granularity maxChunkSize : Nat) :
    WriterInv (create initialSerialNum config alignment granularity maxChunkSize) [] where
  ids := rfl
  chain := rfl
  buffered := by intro p hp; simp [create] at hp
  present := by intro c hc; simp at hc
  written := by intro k hk; simp [create] at hk
  gap := rfl
  stored := by intro m hm; simp [create] at hm

theorem WriterInv_arrive (s : WriteableFileChunk) (ps : List ProcessedChunk)
    (c : ProcessedChunk) (inv : WriterInv s ps) :
    WriterInv (arrive s c) (ps ++ [c]) := by
  have eO : (arrive s c)._orderedChunks
      = (fetchNextChain (mapInsert c.id c s._orderedChunks) s._firstChunkIdToBeWritten).2 := rfl
  have eD : (arrive s c)._dataFile = s._dataFile ++ ((fetchNextChain
      (mapInsert c.id c s._orderedChunks) s._firstChunkIdToBeWritten).1.map
        ProcessedChunk.payload).flatten := rfl
  have eI : (arrive s c)._idxFile = s._idxFile ++ computeChunkMeta (fetchNextChain
      (mapInsert c.id c s._orderedChunks) s._firstChunkIdToBeWritten).1 s._dataFile.length := rfl
  have eF : (arrive s c)._firstChunkIdToBeWritten = s._firstChunkIdToBeWritten
      + (fetchNextChain (mapInsert c.id c s._orderedChunks)
          s._firstChunkIdToBeWritten).1.length := rfl
  obtain ⟨h1, h2, h3⟩ :=
    fetchNextChain_keys (mapInsert c.id c s._orderedChunks) s._firstChunkIdToBeWritten
  have hids := fetchNextChain_ids (mapInsert c.id c s._orderedChunks) s._firstChunkIdToBeWritten
  have hmemq := fetchNextChain_mem (mapInsert c.id c s._orderedChunks) s._firstChunkIdToBeWritten
  have hfind := mapFind_fetchNextChain (mapInsert c.id c s._orderedChunks)
      s._firstChunkIdToBeWritten
  have hbuf1 : ∀ p ∈ mapInsert c.id c s._orderedChunks, p.2 ∈ ps ++ [c] ∧ p.2.id = p.1 := by
    intro p hp
    rcases mem_mapInsert _ _ _ _ hp with rfl | hp
    · simp
    · exact ⟨List.mem_append_left _ (inv.buffered p hp).1, (inv.buffered p hp).2⟩
  generalize fetchNextChain (mapInsert c.id c s._orderedChunks) s._firstChunkIdToBeWritten = q
    at eO eD eI eF h1 h2 h3 hids hmemq hfind
  refine ⟨?_, ?_, ?_, ?_, ?_, ?_, ?_⟩
  · rw [eI, eF, List.map_append, inv.ids, computeChunkMeta_ids,
      hids (fun p hp => (hbuf1 p hp).2), List.range_eq_range', List.range_eq_range']
    have hr := List.range'_append_1 0 s._firstChunkIdToBeWritten q.1.length
    rw [Nat.zero_add] at hr
    rw [hr, Nat.add_comm]
  · rw [eI, eD]
    refine MetaChain_append _ _ _ _ _ inv.chain ?_
    rw [List.length_append]
    exact computeChunkMeta_chain _ _
  · intro p hp
    rw [eO, h3] at hp
    exact hbuf1 p (List.mem_filter.mp hp).1
  · intro c1 hc1 hle
    rw [eF] at hle
    rw [eO, hfind]
    have hnot : ¬ (s._firstChunkIdToBeWritten ≤ c1.id
        ∧ c1.id < s._firstChunkIdToBeWritten + q.1.length) := by omega
    rw [if_neg hnot, mapFind_mapInsert]
    by_cases he : c1.id = c.id
    · simp [he]
    · rw [if_neg he]
      rcases List.mem_append.mp hc1 with h | h
      · exact inv.present c1 h (by omega)
      · simp at h; subst h; exact absurd rfl he
  · intro k hk
    rw [eF] at hk
    by_cases hlt : k < s._firstChunkIdToBeWritten
    · have := inv.written k hlt
      simp only [List.map_append, List.mem_append]
      exact Or.inl this
    · have hk1 : k - s._firstChunkIdToBeWritten < q.1.length := by omega
      have hg := h1 _ hk1
      rw [List.get?_eq_get hk1] at hg
      have hmem := mapFind_mem _ _ _ hg.symm
      have hb := hbuf1 _ hmem
      have hkk : s._firstChunkIdToBeWritten + (k - s._firstChunkIdToBeWritten) = k := by omega
      rw [hkk] at hb
      exact List.mem_map.mpr ⟨_, hb.1, hb.2⟩
  · rw [eO, eF, hfind]
    have hnot : ¬ (s._firstChunkIdToBeWritten ≤ s._firstChunkIdToBeWritten + q.1.length
        ∧ s._firstChunkIdToBeWritten + q.1.length
            < s._firstChunkIdToBeWritten + q.1.length) := by
      omega
    rw [if_neg hnot]
    exact h2
  · intro m hm
    rw [eI] at hm
    rw [eD]
    rcases List.mem_append.mp hm with h | h
    · obtain ⟨c1, hc1, e1, e2, e3⟩ := inv.stored m h
      refine ⟨c1, List.mem_append_left _ hc1, e1, e2, ?_⟩
      rw [extent_append_stable _ _ _ ((MetaChain_bounds _ _ _ inv.chain).2 m h).2]
      exact e3
    · obtain ⟨c1, hc1, e1, e2, _, _, e5, _⟩ := computeChunkMeta_mem _ _ m h
      obtain ⟨i, _, hi⟩ := hmemq _ hc1
      exact ⟨c1, (hbuf1 _ (mapFind_mem _ _ _ hi)).1, e1, e2, e5⟩

theorem WriterInv_arriveAll (cs : List ProcessedChunk) :
    ∀ (s : WriteableFileChunk) (ps : List ProcessedChunk), WriterInv s ps →
      WriterInv (arriveAll s cs) (ps ++ cs) := by
  induction cs with
  | nil => intro s ps h; simpa [arriveAll] using h
  | cons c cs ih =>
    intro s ps h
    have := ih (arrive s c) (ps ++ [c]) (WriterInv_arrive s ps c h)
    simpa [arriveAll] using this

end search

namespace search

open WriteableFileChunk

/-- C2: for every order in which the compressed chunks with ids `0 .. n-1` arrive
at the writer, the `ChunkMeta` records written are in ascending chunk-id order
`0, 1, ..., n-1`, the offsets are contiguous (`offset[k+1] = offset[k] + length[k]`
for every consecutive pair), each record carries the compressed length of the
chunk with its id, and the data file holds the bytes of that chunk at the
recorded extent. -/
theorem writer_ascending_contiguous (initialSerialNum : Nat) (config : Config)
    (alignment granularity maxChunkSize : Nat) (chunks : List ProcessedChunk) (n : Nat)
    (hperm : (chunks.map ProcessedChunk.id).Perm (List.range n)) :
    (arriveAll (create initialSerialNum config alignment granularity maxChunkSize)
        chunks)._idxFile.map ChunkMeta.chunkId = List.range n
    ∧ List.Chain' Contiguous (arriveAll
        (create initialSerialNum config alignment granularity maxChunkSize) chunks)._idxFile
    ∧ (∀ k, k + 1 < n → ∃ a b,
        (arriveAll (create initialSerialNum config alignment granularity maxChunkSize)
          chunks)._idxFile.get? k = some a
        ∧ (arriveAll (create initialSerialNum config alignment granularity maxChunkSize)
          chunks)._idxFile.get? (k + 1) = some b
        ∧ a.chunkId = k ∧ b.chunkId = k + 1
        ∧ b.offset = a.offset + a.size)
    ∧ (∀ m ∈ (arriveAll (create initialSerialNum config alignment granularity maxChunkSize)
          chunks)._idxFile,
        ∃ c ∈ chunks, m.chunkId = c.id ∧ m.size = c.payload.length
          ∧ extent (arriveAll (create initialSerialNum config alignment granularity
              maxChunkSize) chunks)._dataFile m = c.payload) := by
  have inv := WriterInv_arriveAll chunks _ []
    (WriterInv_create initialSerialNum config alignment granularity maxChunkSize)
  rw [List.nil_append] at inv
  generalize arriveAll (create initialSerialNum config alignment granularity maxChunkSize)
    chunks = s at inv
  have hF : s._firstChunkIdToBeWritten = n := by
    apply le_antisymm
    · by_contra hlt
      have h := inv.written n (Nat.lt_of_not_le hlt)
      have := hperm.subset h
      simp at this
    · by_contra hlt
      have hmem : s._firstChunkIdToBeWritten ∈ chunks.map ProcessedChunk.id :=
        hperm.symm.subset (List.mem_range.mpr (Nat.lt_of_not_le hlt))
      obtain ⟨c, hc, hid⟩ := List.mem_map.mp hmem
      have h := inv.present c hc (le_of_eq hid.symm)
      rw [hid, inv.gap] at h
      simp at h
  have hids : s._idxFile.map ChunkMeta.chunkId = List.range n := by rw [inv.ids, hF]
  have hchain := MetaChain_contiguous _ _ _ inv.chain
  have hlen : s._idxFile.length = n := by
    have := congrArg List.length hids
    simpa using this
  refine ⟨hids, hchain, ?_, inv.stored⟩
  intro k hk
  have hk0 : k < s._idxFile.length := by omega
  have hk1 : k + 1 < s._idxFile.length := by omega
  refine ⟨s._idxFile.get ⟨k, hk0⟩, s._idxFile.get ⟨k + 1, hk1⟩,
    List.get?_eq_get hk0, List.get?_eq_get hk1, ?_, ?_, ?_⟩
  · have h := congrArg (fun l => l.get? k) hids
    simp only [List.get?_eq_getElem?, List.getElem?_map] at h
    rw [List.getElem?_eq_getElem hk0, List.getElem?_range (by omega)] at h
    simpa using h
  · have h := congrArg (fun l => l.get? (k + 1)) hids
    simp only [List.get?_eq_getElem?, List.getElem?_map] at h
    rw [List.getElem?_eq_getElem hk1, List.getElem?_range (by omega)] at h
    simpa using h
  · exact (List.chain'_iff_get.mp hchain) k (by omega)

/-- An instance of C2: chunk 1 arrives before chunk 0, chunk 2 last. -/
theorem writer_ascending_contiguous_witness :
    ([({ id := 1, payload := [7, 7], lastSerial := 2, numEntries := 1 } : ProcessedChunk),
      { id := 0, payload := [5], lastSerial := 1, numEntries := 1 },
      { id := 2, payload := [9, 9, 9], lastSerial := 3, numEntries := 1 }].map
        ProcessedChunk.id).Perm (List.range 3)
    ∧ (arriveAll (create 0 Config.default 1 1 1)
        [{ id := 1, payload := [7, 7], lastSerial := 2, numEntries := 1 },
         { id := 0, payload := [5], lastSerial := 1, numEntries := 1 },
         { id := 2, payload := [9, 9, 9], lastSerial := 3, numEntries := 1 }])._idxFile.map
          ChunkMeta.chunkId = List.range 3 :=
  ⟨by decide,
   (writer_ascending_contiguous 0 Config.default 1 1 1
      [{ id := 1, payload := [7, 7], lastSerial := 2, numEntries := 1 },
       { id := 0, payload := [5], lastSerial := 1, numEntries := 1 },
       { id := 2, payload := [9, 9, 9], lastSerial := 3, numEntries := 1 }] 3 (by decide)).1⟩

end search

namespace search

open WriteableFileChunk

/-! ## Freeze -/

theorem frozen_step (cd : Codec) (s : WriteableFileChunk) (e : Event)
    (h : s._frozen = true) : (step cd s e)._frozen = true := by
  cases e with
  | append serialNum lid buffer => simp [step, append, h]
  | compressed i =>
    simp only [step, compressed]
    cases s._executor.get? i with
    | none => exact h
    | some c => exact h
  | fileWriter => exact h
  | freeze => rfl
  | setSerialNum n => exact h

theorem frozen_run (cd : Codec) (evs : List Event) :
    ∀ s : WriteableFileChunk, s._frozen = true → (run cd s evs)._frozen = true := by
  induction evs with
  | nil => intro s h; exact h
  | cons e evs ih => intro s h; exact ih _ (frozen_step cd s e h)

theorem append_frozen (s : WriteableFileChunk) (serialNum lid : Nat) (buffer : Bytes)
    (h : s._frozen = true) :
    append s serialNum lid buffer = Except.error Error.invalidState := by
  simp [append, h]

/-- C4: after `freeze()` the writer reports `frozen()`, and every later `append`,
for every argument and after any further steps of the writer, fails with the
invalid-state error; a second `freeze()` leaves the state as the first left it,
and no step resets the frozen flag. -/
theorem freeze_one_way (cd : Codec) (s : WriteableFileChunk) :
    frozen (freeze s) = true
    ∧ (∀ (serialNum lid : Nat) (buffer : Bytes),
        append (freeze s) serialNum lid buffer = Except.error Error.invalidState)
    ∧ freeze (freeze s) = freeze s
    ∧ (∀ evs : List Event, frozen (run cd (freeze s) evs) = true)
    ∧ (∀ (evs : List Event) (serialNum lid : Nat) (buffer : Bytes),
        append (run cd (freeze s) evs) serialNum lid buffer
          = Except.error Error.invalidState) := by
  have hf : (freeze s)._frozen = true := rfl
  refine ⟨rfl, fun a b c => append_frozen _ a b c hf, ?_,
    fun evs => frozen_run cd evs _ hf,
    fun evs a b c => append_frozen _ a b c (frozen_run cd evs _ hf)⟩
  unfold freeze
  by_cases he : s._active.entries.isEmpty = true
  · simp [he]
  · simp [he, sealActive]

end search

namespace search

open WriteableFileChunk

/-! ## Append and read -/

end search

namespace search

open WriteableFileChunk

theorem findLid_mem (lid : Nat) (es : List Entry) :
    ∀ b, findLid lid es = some b → ∃ e ∈ es, e.lid = lid ∧ e.payload = b := by
  induction es with
  | nil => intro b h; simp [findLid] at h
  | cons e es ih =>
    intro b h
    simp only [findLid] at h
    cases hf : findLid lid es with
    | some b1 =>
      rw [hf] at h
      simp only [Option.some.injEq] at h
      subst h
      obtain ⟨e1, he1, h1, h2⟩ := ih b1 hf
      exact ⟨e1, List.mem_cons_of_mem _ he1, h1, h2⟩
    | none =>
      rw [hf] at h
      by_cases hl : e.lid = lid
      · simp only [hl, if_true, Option.some.injEq] at h
        exact ⟨e, List.mem_cons_self _ _, hl, h⟩
      · simp [hl] at h

theorem findLid_isSome (lid : Nat) (es : List Entry) (h : ∃ e ∈ es, e.lid = lid) :
    ∃ b, findLid lid es = some b := by
  induction es with
  | nil => obtain ⟨e, he, _⟩ := h; simp at he
  | cons e es ih =>
    obtain ⟨e1, he1, hl⟩ := h
    simp only [findLid]
    cases hf : findLid lid es with
    | some b1 => exact ⟨b1, rfl⟩
    | none =>
      rcases List.mem_cons.mp he1 with rfl | he1
      · exact ⟨e1.payload, by simp [hl]⟩
      · obtain ⟨b, hb⟩ := ih ⟨e1, he1, hl⟩
        rw [hf] at hb
        simp at hb

theorem mem_entriesOf (log : List Appended) (c : Nat) (e : Entry) :
    e ∈ entriesOf log c ↔ ∃ a ∈ log, a.chunkId = c ∧ a.entry = e := by
  simp [entriesOf, and_assoc]

end search
